import Mathlib

/-!
# Verification of the `lokigo` ingestion pipeline core

A shallow embedding, in Lean 4, of the parts of the `lokigo` Loki client
that its specification makes claims about: the push-error taxonomy and
retry classification (`retry.go`), the retry engine (`doRetry`), the
per-attempt counter updates of `Client.pushWithRetry`, the worker loop's
batching rule (`Client.run`), request-header assembly, configuration
defaulting and validation (`config.go`), and the vendored protobuf
push payload codec (`internal/push`).

Go machine integers are modelled as `Nat`/`Int` with explicit wrap-around
where a conversion matters; Go errors become an inductive error tree whose
edges are `Unwrap` links; Go byte strings become `List Nat`; fallible Go
functions return `Option`.
-/

namespace Lokigo

/-! ## Push-error taxonomy and `Unwrap` chains

Go errors relevant to retry classification, as an inductive type.
`network c` is `*NetworkPushError{Err: c}` (its `Unwrap` returns `c`);
`httpStatus code body` is `*HTTPStatusPushError` (it has no `Unwrap`);
`wrap e` is any other error whose `Unwrap` returns `e`; `leaf msg` is any
other error without `Unwrap`. -/

inductive GoError : Type where
  | network (cause : GoError) : GoError
  | httpStatus (statusCode : Int) (body : String) : GoError
  | wrap (inner : GoError) : GoError
  | leaf (msg : String) : GoError
deriving DecidableEq, Repr

/-- The `errors.As`/`errors.Is` traversal order: the error itself, then the
errors reached by repeatedly calling `Unwrap`. -/
def GoError.unwrapChain : GoError → List GoError
  | .network c => .network c :: c.unwrapChain
  | .httpStatus code body => [.httpStatus code body]
  | .wrap e => .wrap e :: e.unwrapChain
  | .leaf msg => [.leaf msg]

/-- `errors.As(err, &netErr)` for `netErr : *NetworkPushError`: does the
unwrap chain contain a `NetworkPushError`? -/
def errorsAsNetworkPushError : GoError → Bool
  | .network _ => true
  | .httpStatus _ _ => false
  | .wrap e => errorsAsNetworkPushError e
  | .leaf _ => false

/-- `errors.As(err, &statusErr)` for `statusErr : *HTTPStatusPushError`:
the status code of the first `HTTPStatusPushError` in the unwrap chain. -/
def errorsAsHTTPStatusPushError : GoError → Option Int
  | .network c => errorsAsHTTPStatusPushError c
  | .httpStatus code _ => some code
  | .wrap e => errorsAsHTTPStatusPushError e
  | .leaf _ => none

/-- `shouldRetryPushError` from `retry.go`.  A Go `error` value is
`Option GoError`, with `none` for `nil`. -/
def shouldRetryPushError : Option GoError → Bool
  | none => false
  | some err =>
    if errorsAsNetworkPushError err then true
    else
      match errorsAsHTTPStatusPushError err with
      | some code => decide (code = 429) || decide (500 ≤ code)
      | none => false

/-! Helper lemmas relating the `errors.As` traversals to chain membership. -/

theorem errorsAsNetwork_iff_mem (e : GoError) :
    errorsAsNetworkPushError e = true ↔ ∃ c, GoError.network c ∈ e.unwrapChain := by
  induction e with
  | network c ih =>
    simp [errorsAsNetworkPushError, GoError.unwrapChain]
  | httpStatus code body =>
    simp [errorsAsNetworkPushError, GoError.unwrapChain]
  | wrap inner ih =>
    simp [errorsAsNetworkPushError, GoError.unwrapChain, ih]
  | leaf msg =>
    simp [errorsAsNetworkPushError, GoError.unwrapChain]

theorem errorsAsStatus_of_mem {e : GoError} {code : Int} {body : String}
    (h : GoError.httpStatus code body ∈ e.unwrapChain) :
    errorsAsHTTPStatusPushError e = some code := by
  induction e with
  | network c ih =>
    simp only [GoError.unwrapChain, List.mem_cons] at h
    rcases h with h | h
    · exact absurd h (by simp)
    · exact ih h
  | httpStatus c b =>
    simp only [GoError.unwrapChain, List.mem_singleton] at h
    cases h
    rfl
  | wrap inner ih =>
    simp only [GoError.unwrapChain, List.mem_cons] at h
    rcases h with h | h
    · exact absurd h (by simp)
    · exact ih h
  | leaf msg =>
    simp only [GoError.unwrapChain, List.mem_singleton] at h
    exact absurd h (by simp)

theorem mem_of_errorsAsStatus {e : GoError} {code : Int}
    (h : errorsAsHTTPStatusPushError e = some code) :
    ∃ body, GoError.httpStatus code body ∈ e.unwrapChain := by
  induction e with
  | network c ih =>
    obtain ⟨body, hb⟩ := ih h
    exact ⟨body, by simp [GoError.unwrapChain, hb]⟩
  | httpStatus c b =>
    simp only [errorsAsHTTPStatusPushError, Option.some_inj] at h
    exact ⟨b, by simp [GoError.unwrapChain, h]⟩
  | wrap inner ih =>
    obtain ⟨body, hb⟩ := ih h
    exact ⟨body, by simp [GoError.unwrapChain, hb]⟩
  | leaf msg =>
    simp [errorsAsHTTPStatusPushError] at h

/-- Claim C2: `shouldRetryPushError` returns `true` exactly when the error is
(or wraps, through its `Unwrap` chain) a `NetworkPushError`, or an
`HTTPStatusPushError` whose status code is 429 or at least 500; it returns
`false` for every other error and for `nil`. -/
theorem shouldRetry_iff (e : Option GoError) :
    shouldRetryPushError e = true ↔
      ∃ e₀, e = some e₀ ∧
        ((∃ c, GoError.network c ∈ e₀.unwrapChain) ∨
         (∃ code body, GoError.httpStatus code body ∈ e₀.unwrapChain ∧
            (code = 429 ∨ 500 ≤ code))) := by
  cases e with
  | none => simp [shouldRetryPushError]
  | some e₀ =>
    constructor
    · intro h
      refine ⟨e₀, rfl, ?_⟩
      rcases hnet : errorsAsNetworkPushError e₀ with _ | _
      · simp only [shouldRetryPushError, hnet, Bool.false_eq_true, if_false] at h
        rcases hstat : errorsAsHTTPStatusPushError e₀ with _ | code
        · rw [hstat] at h; simp at h
        · rw [hstat] at h
          simp only [Bool.or_eq_true, decide_eq_true_eq] at h
          obtain ⟨body, hb⟩ := mem_of_errorsAsStatus hstat
          exact Or.inr ⟨code, body, hb, h⟩
      · exact Or.inl ((errorsAsNetwork_iff_mem e₀).mp hnet)
    · rintro ⟨e₁, he, h⟩
      injection he with he'
      subst he'
      rcases h with ⟨c, hc⟩ | ⟨code, body, hmem, hcode⟩
      · have hnet : errorsAsNetworkPushError e₀ = true :=
          (errorsAsNetwork_iff_mem e₀).mpr ⟨c, hc⟩
        simp [shouldRetryPushError, hnet]
      · have hs := errorsAsStatus_of_mem hmem
        rcases hnet : errorsAsNetworkPushError e₀ with _ | _
        · simp only [shouldRetryPushError, hnet, Bool.false_eq_true, if_false, hs]
          rcases hcode with h429 | h5xx
          · simp [h429]
          · simp [h5xx]
        · simp [shouldRetryPushError, hnet]

/-- Witness for C2 at concrete inputs: an `HTTPStatusPushError` with code 502
wrapped in a generic error is retryable, and the iff also certifies that a
bare 400 status error is not. -/
theorem shouldRetry_iff_witness :
    shouldRetryPushError (some (GoError.wrap (GoError.httpStatus 502 "bad gateway"))) = true ∧
      shouldRetryPushError (some (GoError.httpStatus 400 "bad request")) = false := by
  constructor
  · exact (shouldRetry_iff (some (GoError.wrap (GoError.httpStatus 502 "bad gateway")))).mpr
      ⟨_, rfl, Or.inr ⟨502, "bad gateway", by simp [GoError.unwrapChain], Or.inr (by norm_num)⟩⟩
  · decide

/-! ## The retry engine `doRetry` (`retry.go`)

`doRetry` drives a closure `fn func(attempt int) error` up to
`cfg.MaxAttempts` times.  The closure may have side effects on client
state (the counters of `pushWithRetry`), so the embedding is generic over
a state type `σ`: a pure closure instantiates `σ := Unit`.  The model
covers the runs in which the context is never cancelled (the backoff
sleeps then have no observable effect and are elided).  Besides the
returned error it also reports how many times the closure was invoked. -/

def doRetryGo {σ : Type} (maxAttempts : Nat)
    (fn : Nat → σ → Option GoError × σ) :
    Nat → Option GoError → σ → Option GoError × σ × Nat
  | i, lastErr, s =>
    if i < maxAttempts then
      match fn i s with
      | (none, s') => (none, s', i + 1)
      | (some err, s') =>
        if shouldRetryPushError (some err) = false then (some err, s', i + 1)
        else if i = maxAttempts - 1 then (some err, s', i + 1)
        else doRetryGo maxAttempts fn (i + 1) (some err) s'
    else (lastErr, s, i)
termination_by i _ _ => maxAttempts - i
decreasing_by simp_wf; omega

/-- `doRetry` from `retry.go`, started at attempt index 0 with `lastErr = nil`,
returning the final error, the final closure state, and the number of
invocations of the attempt function. -/
def doRetry {σ : Type} (maxAttempts : Nat)
    (fn : Nat → σ → Option GoError × σ) (s₀ : σ) : Option GoError × σ × Nat :=
  doRetryGo maxAttempts fn 0 none s₀

/-- A pure attempt function, as passed to `doRetry` when its state is ignored. -/
def pureAttempt (fn : Nat → Option GoError) : Nat → Unit → Option GoError × Unit :=
  fun i _ => (fn i, ())

theorem doRetryGo_unfold {σ : Type} (maxAttempts : Nat)
    (fn : Nat → σ → Option GoError × σ) (i : Nat) (lastErr : Option GoError) (s : σ) :
    doRetryGo maxAttempts fn i lastErr s =
      if i < maxAttempts then
        match fn i s with
        | (none, s') => (none, s', i + 1)
        | (some err, s') =>
          if shouldRetryPushError (some err) = false then (some err, s', i + 1)
          else if i = maxAttempts - 1 then (some err, s', i + 1)
          else doRetryGo maxAttempts fn (i + 1) (some err) s'
      else (lastErr, s, i) := by
  rw [doRetryGo]

/-- The attempt counter reported by the loop never exceeds `maxAttempts`. -/
theorem doRetryGo_calls_le {σ : Type} (maxAttempts : Nat)
    (fn : Nat → σ → Option GoError × σ) :
    ∀ d i lastErr (s : σ), i ≤ maxAttempts → maxAttempts - i ≤ d →
      (doRetryGo maxAttempts fn i lastErr s).2.2 ≤ maxAttempts := by
  intro d
  induction d with
  | zero =>
    intro i lastErr s hi hd
    have hni : ¬ i < maxAttempts := by omega
    rw [doRetryGo_unfold]
    simp only [hni, if_false]
    exact hi
  | succ d ih =>
    intro i lastErr s hi hd
    rw [doRetryGo_unfold]
    by_cases hlt : i < maxAttempts
    · simp only [hlt, if_true]
      rcases hfn : fn i s with ⟨e?, s'⟩
      cases e? with
      | none => simpa using hlt
      | some err =>
        dsimp only
        by_cases hr : shouldRetryPushError (some err) = false
        · rw [if_pos hr]
          exact hlt
        · rw [if_neg hr]
          by_cases hlast : i = maxAttempts - 1
          · rw [if_pos hlast]
            exact hlt
          · rw [if_neg hlast]
            exact ih (i + 1) (some err) s' (by omega) (by omega)
    · simp only [hlt, if_false]
      exact hi

/-- For attempt indices still inside the loop, the accumulated `lastErr`
cannot influence the result: the loop only returns it when entered with
`i ≥ maxAttempts`. -/
theorem doRetryGo_lastErr_irrel {σ : Type} (maxAttempts : Nat)
    (fn : Nat → σ → Option GoError × σ) :
    ∀ d i l₁ l₂ (s : σ), i < maxAttempts → maxAttempts - i ≤ d →
      doRetryGo maxAttempts fn i l₁ s = doRetryGo maxAttempts fn i l₂ s := by
  intro d
  induction d with
  | zero => intro i l₁ l₂ s hi hd; omega
  | succ d ih =>
    intro i l₁ l₂ s hi hd
    rw [doRetryGo_unfold, doRetryGo_unfold maxAttempts fn i l₂]
    simp only [hi, if_true]

/-- Running the loop from index `i` across a block of retryable failures
reaches index `k` (with the accumulated error replaced by `none`, which the
loop never reads at an in-range index). -/
theorem doRetryGo_pure_skip (maxAttempts : Nat) (fn : Nat → Option GoError) :
    ∀ d i k, k - i ≤ d → i ≤ k → k < maxAttempts →
      (∀ j, i ≤ j → j < k → ∃ e, fn j = some e ∧ shouldRetryPushError (some e) = true) →
      ∀ l, doRetryGo maxAttempts (pureAttempt fn) i l () =
        doRetryGo maxAttempts (pureAttempt fn) k none () := by
  intro d
  induction d with
  | zero =>
    intro i k hd hik hk hret l
    have : i = k := by omega
    subst this
    exact doRetryGo_lastErr_irrel maxAttempts (pureAttempt fn)
      (maxAttempts - i) i l none () hk le_rfl
  | succ d ih =>
    intro i k hd hik hk hret l
    rcases Nat.eq_or_lt_of_le hik with heq | hlt
    · subst heq
      exact doRetryGo_lastErr_irrel maxAttempts (pureAttempt fn)
        (maxAttempts - i) i l none () hk le_rfl
    · obtain ⟨e, hfe, hre⟩ := hret i le_rfl hlt
      rw [doRetryGo_unfold]
      have h1 : i < maxAttempts := by omega
      have h2 : i ≠ maxAttempts - 1 := by omega
      have hrn : ¬ shouldRetryPushError (some e) = false := by simp [hre]
      rw [if_pos h1]
      simp only [pureAttempt, hfe]
      rw [if_neg hrn, if_neg h2]
      exact ih (i + 1) k (by omega) (by omega) hk
        (fun j hj hj' => hret j (by omega) hj') (some e)

/-- Claim C3: for any retry policy with `MaxAttempts ≥ 1`, and any attempt
function, in a run where the cancel signal does not fire: the attempt
function is invoked at most `MaxAttempts` times; if the first `k` attempts
fail retryably and attempt `k` succeeds, the engine returns `nil` after
exactly `k + 1` invocations; a non-retryable error at attempt `k` is
returned immediately after exactly `k + 1` invocations; and if all
`MaxAttempts` attempts fail retryably, the engine makes exactly
`MaxAttempts` invocations and returns the last observed error. -/
theorem doRetry_spec (maxAttempts : Nat) (fn : Nat → Option GoError)
    (h : 1 ≤ maxAttempts) :
    ((doRetry maxAttempts (pureAttempt fn) ()).2.2 ≤ maxAttempts) ∧
    (∀ k, k < maxAttempts →
      (∀ j, j < k → ∃ e, fn j = some e ∧ shouldRetryPushError (some e) = true) →
      fn k = none →
      doRetry maxAttempts (pureAttempt fn) () = (none, (), k + 1)) ∧
    (∀ k e, k < maxAttempts →
      (∀ j, j < k → ∃ e', fn j = some e' ∧ shouldRetryPushError (some e') = true) →
      fn k = some e → shouldRetryPushError (some e) = false →
      doRetry maxAttempts (pureAttempt fn) () = (some e, (), k + 1)) ∧
    ((∀ j, j < maxAttempts → ∃ e, fn j = some e ∧ shouldRetryPushError (some e) = true) →
      ∃ e, fn (maxAttempts - 1) = some e ∧
        doRetry maxAttempts (pureAttempt fn) () = (some e, (), maxAttempts)) := by
  refine ⟨?_, ?_, ?_, ?_⟩
  · exact doRetryGo_calls_le maxAttempts (pureAttempt fn) (maxAttempts - 0) 0 none ()
      (by omega) le_rfl
  · intro k hk hret hfk
    unfold doRetry
    rw [doRetryGo_pure_skip maxAttempts fn (k - 0) 0 k le_rfl (Nat.zero_le k) hk
      (fun j _ hj' => hret j hj') none]
    rw [doRetryGo_unfold, if_pos hk]
    simp only [pureAttempt, hfk]
  · intro k e hk hret hfk hterm
    unfold doRetry
    rw [doRetryGo_pure_skip maxAttempts fn (k - 0) 0 k le_rfl (Nat.zero_le k) hk
      (fun j _ hj' => hret j hj') none]
    rw [doRetryGo_unfold, if_pos hk]
    simp only [pureAttempt, hfk]
    rw [if_pos hterm]
  · intro hret
    obtain ⟨e, hfe, hre⟩ := hret (maxAttempts - 1) (by omega)
    refine ⟨e, hfe, ?_⟩
    unfold doRetry
    rw [doRetryGo_pure_skip maxAttempts fn maxAttempts 0 (maxAttempts - 1) (by omega)
      (by omega) (by omega) (fun j _ hj' => hret j (by omega)) none]
    have h1 : maxAttempts - 1 < maxAttempts := by omega
    have hrn : ¬ shouldRetryPushError (some e) = false := by simp [hre]
    rw [doRetryGo_unfold, if_pos h1]
    simp only [pureAttempt, hfe]
    rw [if_neg hrn]
    have h2 : maxAttempts - 1 + 1 = maxAttempts := by omega
    simp [h2]

/-- Witness for C3: with three allowed attempts and an attempt function that
fails retryably once (a network error) then succeeds, the engine returns
`nil` after exactly two invocations. -/
theorem doRetry_spec_witness :
    doRetry 3 (pureAttempt (fun j => if j = 0 then some (GoError.network (GoError.leaf "conn refused")) else none)) ()
      = (none, (), 2) := by
  have h := (doRetry_spec 3
    (fun j => if j = 0 then some (GoError.network (GoError.leaf "conn refused")) else none)
    (by norm_num)).2.1 1 (by norm_num)
    (fun j hj => ⟨GoError.network (GoError.leaf "conn refused"), by
      interval_cases j
      · simp
      , by decide⟩)
    (by simp)
  exact h

/-! ## Counter updates in `Client.pushWithRetry`

`pushWithRetry` hands `doRetry` a closure over the client's atomic
counters.  The closure's transport interactions are abstracted into one
outcome per attempt index: request construction fails, `HTTPClient.Do`
fails, or a response with some status code arrives.  The closure's body is
translated statement-for-statement: every failed attempt adds the batch
entry count to `pushErrors`, every attempt with index `> 0` adds one to
`retries`, and a 2xx response adds the entry count to `pushed`. -/

structure Metrics where
  pushed : Nat
  pushErrors : Nat
  retries : Nat
deriving DecidableEq, Repr

inductive AttemptOutcome : Type where
  | reqErr (e : GoError) : AttemptOutcome
  | doErr (cause : GoError) : AttemptOutcome
  | response (statusCode : Int) (body : String) : AttemptOutcome

/-- `if attempt > 0 { c.retries.Add(1) }`. -/
def retriesBump (attempt : Nat) : Nat := if 0 < attempt then 1 else 0

/-- One invocation of the closure `pushWithRetry` passes to `doRetry`,
acting on the counter state.  `entriesLen` is `len(entries)`. -/
def pushAttempt (entriesLen : Nat) (outcomes : Nat → AttemptOutcome)
    (attempt : Nat) (m : Metrics) : Option GoError × Metrics :=
  match outcomes attempt with
  | .reqErr e =>
      (some e,
        { m with pushErrors := m.pushErrors + entriesLen,
                 retries := m.retries + retriesBump attempt })
  | .doErr cause =>
      (some (GoError.network cause),
        { m with pushErrors := m.pushErrors + entriesLen,
                 retries := m.retries + retriesBump attempt })
  | .response code body =>
      if Int.tdiv code 100 ≠ 2 then
        (some (GoError.httpStatus code body),
          { m with pushErrors := m.pushErrors + entriesLen,
                   retries := m.retries + retriesBump attempt })
      else
        (none,
          { m with pushed := m.pushed + entriesLen,
                   retries := m.retries + retriesBump attempt })

/-- `Client.pushWithRetry` restricted to its counter behaviour: the retry
engine driving the closure above over the counter state. -/
def pushWithRetry (maxAttempts entriesLen : Nat)
    (outcomes : Nat → AttemptOutcome) (m₀ : Metrics) :
    Option GoError × Metrics × Nat :=
  doRetry maxAttempts (pushAttempt entriesLen outcomes) m₀

/-- Counter bookkeeping of a `pushWithRetry` run, entered at attempt index
`i`: with `t` further attempts after the one at `i`, `retries` grows by one
per attempt whose index is positive, `pushErrors` grows by the entry count
once per failed attempt, and `pushed` grows by the entry count exactly on a
successful final attempt. -/
theorem doRetryGo_pushAttempt_metrics (maxAttempts n : Nat)
    (outcomes : Nat → AttemptOutcome) :
    ∀ d i lastErr (m : Metrics), i < maxAttempts → maxAttempts - i ≤ d →
      ∃ t,
        (doRetryGo maxAttempts (pushAttempt n outcomes) i lastErr m).2.2 = i + 1 + t ∧
        (doRetryGo maxAttempts (pushAttempt n outcomes) i lastErr m).2.1.retries
          = m.retries + (if i = 0 then t else t + 1) ∧
        (doRetryGo maxAttempts (pushAttempt n outcomes) i lastErr m).2.1.pushErrors
          = m.pushErrors + n * t +
            (if (doRetryGo maxAttempts (pushAttempt n outcomes) i lastErr m).1 = none
             then 0 else n) ∧
        (doRetryGo maxAttempts (pushAttempt n outcomes) i lastErr m).2.1.pushed
          = m.pushed +
            (if (doRetryGo maxAttempts (pushAttempt n outcomes) i lastErr m).1 = none
             then n else 0) := by
  intro d
  induction d with
  | zero => intro i lastErr m hi hd; omega
  | succ d ih =>
    intro i lastErr m hi hd
    rw [doRetryGo_unfold, if_pos hi]
    rcases hstep : pushAttempt n outcomes i m with ⟨e?, m₁⟩
    have hmetrics :
        (e? = none → m₁.retries = m.retries + retriesBump i ∧
          m₁.pushErrors = m.pushErrors ∧ m₁.pushed = m.pushed + n) ∧
        (e? ≠ none → m₁.retries = m.retries + retriesBump i ∧
          m₁.pushErrors = m.pushErrors + n ∧ m₁.pushed = m.pushed) := by
      unfold pushAttempt at hstep
      rcases ho : outcomes i with e | cause | ⟨code, body⟩
      all_goals rw [ho] at hstep
      all_goals dsimp only at hstep
      · cases hstep
        exact ⟨fun h => absurd h (by simp), fun _ => ⟨rfl, rfl, rfl⟩⟩
      · cases hstep
        exact ⟨fun h => absurd h (by simp), fun _ => ⟨rfl, rfl, rfl⟩⟩
      · by_cases h2 : Int.tdiv code 100 ≠ 2
        · rw [if_pos h2] at hstep
          cases hstep
          exact ⟨fun h => absurd h (by simp), fun _ => ⟨rfl, rfl, rfl⟩⟩
        · rw [if_neg h2] at hstep
          cases hstep
          exact ⟨fun _ => ⟨rfl, rfl, rfl⟩, fun h => absurd rfl h⟩
    cases e? with
    | none =>
      dsimp only
      obtain ⟨hr, hpe, hpu⟩ := hmetrics.1 rfl
      refine ⟨0, by simp, ?_, ?_, ?_⟩
      · simp only [hr, retriesBump]
        by_cases h0 : i = 0
        · subst h0; simp
        · rw [if_neg h0, if_pos (by omega)]
      · simp [hpe]
      · simp [hpu]
    | some err =>
      dsimp only
      obtain ⟨hr, hpe, hpu⟩ := hmetrics.2 (by simp)
      by_cases hterm : shouldRetryPushError (some err) = false
      · rw [if_pos hterm]
        refine ⟨0, by simp, ?_, ?_, ?_⟩
        · simp only [hr, retriesBump]
          by_cases h0 : i = 0
          · subst h0; simp
          · rw [if_neg h0, if_pos (by omega)]
        · simp [hpe]
        · simp [hpu]
      · rw [if_neg hterm]
        by_cases hlast : i = maxAttempts - 1
        · rw [if_pos hlast]
          refine ⟨0, by simp, ?_, ?_, ?_⟩
          · simp only [hr, retriesBump]
            by_cases h0 : i = 0
            · subst h0; simp
            · rw [if_neg h0, if_pos (by omega)]
          · simp [hpe]
          · simp [hpu]
        · rw [if_neg hlast]
          obtain ⟨t', hcalls, hret, hpe', hpu'⟩ :=
            ih (i + 1) (some err) m₁ (by omega) (by omega)
          refine ⟨t' + 1, by omega, ?_, ?_, ?_⟩
          · rw [hret, hr]
            simp only [retriesBump, Nat.succ_ne_zero, if_false]
            by_cases h0 : i = 0
            · subst h0; simp
            · rw [if_neg h0, if_pos (by omega)]
              omega
          · rw [hpe', hpe, Nat.mul_succ]
            ring
          · rw [hpu', hpu]

/-- Claim C4 (amended): on every flush, `Retries` increases by one for
every attempt whose index is greater than 0 — that is, by the number of
invocations beyond the first — whether the final outcome is success or
failure.  In particular it is unchanged when the outcome arrives on attempt
index 0. -/
theorem pushWithRetry_retries (maxAttempts n : Nat)
    (outcomes : Nat → AttemptOutcome) (m₀ : Metrics) (h : 1 ≤ maxAttempts) :
    1 ≤ (pushWithRetry maxAttempts n outcomes m₀).2.2 ∧
      (pushWithRetry maxAttempts n outcomes m₀).2.1.retries
        = m₀.retries + ((pushWithRetry maxAttempts n outcomes m₀).2.2 - 1) := by
  obtain ⟨t, hcalls, hret, _, _⟩ :=
    doRetryGo_pushAttempt_metrics maxAttempts n outcomes (maxAttempts - 0) 0 none m₀
      (by omega) le_rfl
  unfold pushWithRetry doRetry
  constructor
  · omega
  · rw [hret, hcalls]
    simp

/-- Witness for the amended C4: three attempts allowed, every response 500,
one entry.  The theorem applies with its hypothesis discharged at this
concrete input. -/
theorem pushWithRetry_retries_witness :
    1 ≤ (pushWithRetry 3 1 (fun _ => AttemptOutcome.response 500 "err") ⟨0, 0, 0⟩).2.2 ∧
      (pushWithRetry 3 1 (fun _ => AttemptOutcome.response 500 "err") ⟨0, 0, 0⟩).2.1.retries
        = (0 : Nat) + ((pushWithRetry 3 1 (fun _ => AttemptOutcome.response 500 "err") ⟨0, 0, 0⟩).2.2 - 1) :=
  pushWithRetry_retries 3 1 (fun _ => AttemptOutcome.response 500 "err") ⟨0, 0, 0⟩ (by norm_num)

/-- Counterexample to C4 as stated: a flush of one entry whose three allowed
attempts all receive HTTP 500 ends with `Retries = 2`, not 1 — the counter
is bumped on every attempt with index `> 0`, not once per retry-engine
outcome. -/
theorem pushWithRetry_retries_cex :
    (pushWithRetry 3 1 (fun _ => AttemptOutcome.response 500 "err") ⟨0, 0, 0⟩).2.1.retries = 2 ∧
      ¬ (pushWithRetry 3 1 (fun _ => AttemptOutcome.response 500 "err") ⟨0, 0, 0⟩).2.1.retries ≤ 1 := by
  have h500 : Int.tdiv 500 100 = 5 := by decide
  simp [pushWithRetry, doRetry, doRetryGo_unfold, pushAttempt, retriesBump, h500,
    shouldRetryPushError, errorsAsNetworkPushError, errorsAsHTTPStatusPushError]

/-- Claim C5 (amended): `PushErrors` increases by the batch entry count on
every failed attempt, not once per flush outcome: a flush whose retry-engine
outcome is success after `k` invocations adds `(k - 1) · n` to `PushErrors`,
and a flush whose outcome is failure after `k` invocations adds `k · n`. -/
theorem pushWithRetry_pushErrors (maxAttempts n : Nat)
    (outcomes : Nat → AttemptOutcome) (m₀ : Metrics) (h : 1 ≤ maxAttempts) :
    ((pushWithRetry maxAttempts n outcomes m₀).1 = none →
      (pushWithRetry maxAttempts n outcomes m₀).2.1.pushErrors
        = m₀.pushErrors + n * ((pushWithRetry maxAttempts n outcomes m₀).2.2 - 1)) ∧
    ((pushWithRetry maxAttempts n outcomes m₀).1 ≠ none →
      (pushWithRetry maxAttempts n outcomes m₀).2.1.pushErrors
        = m₀.pushErrors + n * (pushWithRetry maxAttempts n outcomes m₀).2.2) := by
  obtain ⟨t, hcalls, _, hpe, _⟩ :=
    doRetryGo_pushAttempt_metrics maxAttempts n outcomes (maxAttempts - 0) 0 none m₀
      (by omega) le_rfl
  unfold pushWithRetry doRetry
  constructor
  · intro hnone
    rw [hpe, hcalls, if_pos hnone]
    simp
  · intro hsome
    rw [hpe, hcalls, if_neg hsome]
    have h1 : 0 + 1 + t = t + 1 := by omega
    rw [h1, Nat.mul_succ]
    omega

/-- Witness for the amended C5 at a concrete input: two attempts allowed,
every response 500, one entry; the failure case of the theorem applies. -/
theorem pushWithRetry_pushErrors_witness :
    ((pushWithRetry 2 1 (fun _ => AttemptOutcome.response 500 "err") ⟨0, 0, 0⟩).1 = none →
      (pushWithRetry 2 1 (fun _ => AttemptOutcome.response 500 "err") ⟨0, 0, 0⟩).2.1.pushErrors
        = (0 : Nat) + 1 * ((pushWithRetry 2 1 (fun _ => AttemptOutcome.response 500 "err") ⟨0, 0, 0⟩).2.2 - 1)) ∧
    ((pushWithRetry 2 1 (fun _ => AttemptOutcome.response 500 "err") ⟨0, 0, 0⟩).1 ≠ none →
      (pushWithRetry 2 1 (fun _ => AttemptOutcome.response 500 "err") ⟨0, 0, 0⟩).2.1.pushErrors
        = (0 : Nat) + 1 * (pushWithRetry 2 1 (fun _ => AttemptOutcome.response 500 "err") ⟨0, 0, 0⟩).2.2) :=
  pushWithRetry_pushErrors 2 1 (fun _ => AttemptOutcome.response 500 "err") ⟨0, 0, 0⟩ (by norm_num)

/-- Counterexample to C5 as stated: a flush of one entry that exhausts two
allowed attempts against HTTP 500 ends with `PushErrors = 2`, not the batch
entry count 1 — the counter is bumped once per failed attempt, not once per
flush outcome. -/
theorem pushWithRetry_pushErrors_cex :
    (pushWithRetry 2 1 (fun _ => AttemptOutcome.response 500 "err") ⟨0, 0, 0⟩).2.1.pushErrors = 2 ∧
      (pushWithRetry 2 1 (fun _ => AttemptOutcome.response 500 "err") ⟨0, 0, 0⟩).2.1.pushErrors ≠ 1 := by
  have h500 : Int.tdiv 500 100 = 5 := by decide
  simp [pushWithRetry, doRetry, doRetryGo_unfold, pushAttempt, retriesBump, h500,
    shouldRetryPushError, errorsAsNetworkPushError, errorsAsHTTPStatusPushError]

/-! ## The worker loop's batching rule (`Client.run`)

The worker keeps a batch (modelled by the list of its entries' line
lengths, in arrival order) and a running byte total `batchBytes`.  On a
queue delivery it flushes first when appending would exceed either cap
(`len(batch) >= BatchMaxEntries || batchBytes+lineSize > BatchMaxBytes`),
then appends; on a ticker fire it flushes; on shutdown it drains queued
deliveries under the same rule and ends with a final flush.  A flush of an
empty batch is a no-op.  Flushed batches are collected in order. -/

structure BatchLimits where
  batchMaxEntries : Nat
  batchMaxBytes : Nat

inductive WorkerEvent : Type where
  | deliver (lineLen : Nat) : WorkerEvent
  | tick : WorkerEvent
deriving DecidableEq

structure WorkerState where
  batch : List Nat
  batchBytes : Nat
deriving DecidableEq

/-- The `flush` closure of `Client.run`: no-op on an empty batch, otherwise
emit the batch and reset both the buffer and the byte total. -/
def flushBatch (st : WorkerState) : WorkerState × List (List Nat) :=
  if st.batch = [] then (st, [])
  else ({ batch := [], batchBytes := 0 }, [st.batch])

/-- One iteration of the worker's select loop. -/
def workerStep (cfg : BatchLimits) (st : WorkerState) (ev : WorkerEvent) :
    WorkerState × List (List Nat) :=
  match ev with
  | .tick => flushBatch st
  | .deliver lineLen =>
    let fl :=
      if cfg.batchMaxEntries ≤ st.batch.length ∨
          cfg.batchMaxBytes < st.batchBytes + lineLen
      then flushBatch st else (st, [])
    ({ batch := fl.1.batch ++ [lineLen], batchBytes := fl.1.batchBytes + lineLen },
      fl.2)

/-- The worker loop over a finite schedule of events. -/
def workerRun (cfg : BatchLimits) (st : WorkerState) :
    List WorkerEvent → WorkerState × List (List Nat)
  | [] => (st, [])
  | ev :: evs =>
    let s₁ := workerStep cfg st ev
    let s₂ := workerRun cfg s₁.1 evs
    (s₂.1, s₁.2 ++ s₂.2)

/-- `Client.run` from worker start to shutdown: an empty initial batch, the
event schedule, and the final drain flush.  Returns every flushed batch in
flush order. -/
def clientRunBatches (cfg : BatchLimits) (evs : List WorkerEvent) : List (List Nat) :=
  (workerRun cfg { batch := [], batchBytes := 0 } evs).2 ++
    (flushBatch (workerRun cfg { batch := [], batchBytes := 0 } evs).1).2

/-- The cap invariant a single batch satisfies. -/
def BatchOK (cfg : BatchLimits) (b : List Nat) : Prop :=
  b.length ≤ cfg.batchMaxEntries ∧
    (b.sum ≤ cfg.batchMaxBytes ∨ ∃ l, b = [l] ∧ cfg.batchMaxBytes < l)

/-- The worker-state invariant: the byte total tracks the batch, and the
batch satisfies the cap invariant. -/
def StateOK (cfg : BatchLimits) (st : WorkerState) : Prop :=
  st.batchBytes = st.batch.sum ∧ BatchOK cfg st.batch

theorem flushBatch_preserves (cfg : BatchLimits) (st : WorkerState)
    (hst : StateOK cfg st) :
    StateOK cfg (flushBatch st).1 ∧
      ∀ b ∈ (flushBatch st).2, b ≠ [] ∧ BatchOK cfg b := by
  unfold flushBatch
  by_cases hb : st.batch = []
  · rw [if_pos hb]
    exact ⟨hst, by simp⟩
  · rw [if_neg hb]
    refine ⟨⟨rfl, by simp [BatchOK]⟩, ?_⟩
    intro b hbmem
    simp only [List.mem_singleton] at hbmem
    subst hbmem
    exact ⟨hb, hst.2⟩

theorem flushBatch_fst (cfg : BatchLimits) (st : WorkerState)
    (hst : StateOK cfg st) :
    (flushBatch st).1.batch = [] ∧ (flushBatch st).1.batchBytes = 0 := by
  unfold flushBatch
  by_cases hb : st.batch = []
  · rw [if_pos hb]
    exact ⟨hb, by rw [hst.1, hb]; rfl⟩
  · rw [if_neg hb]
    exact ⟨rfl, rfl⟩

theorem workerStep_preserves (cfg : BatchLimits) (h1 : 1 ≤ cfg.batchMaxEntries)
    (st : WorkerState) (ev : WorkerEvent) (hst : StateOK cfg st) :
    StateOK cfg (workerStep cfg st ev).1 ∧
      ∀ b ∈ (workerStep cfg st ev).2, b ≠ [] ∧ BatchOK cfg b := by
  cases ev with
  | tick => exact flushBatch_preserves cfg st hst
  | deliver lineLen =>
    unfold workerStep
    dsimp only
    by_cases hflush : cfg.batchMaxEntries ≤ st.batch.length ∨
        cfg.batchMaxBytes < st.batchBytes + lineLen
    · rw [if_pos hflush]
      obtain ⟨hb0, hbb0⟩ := flushBatch_fst cfg st hst
      have hems := (flushBatch_preserves cfg st hst).2
      refine ⟨⟨?_, ?_, ?_⟩, hems⟩
      · simp [hb0, hbb0]
      · simp [hb0, h1]
      · by_cases hcap : lineLen ≤ cfg.batchMaxBytes
        · exact Or.inl (by simp [hb0, hbb0, hcap])
        · exact Or.inr ⟨lineLen, by simp [hb0], by omega⟩
    · rw [if_neg hflush]
      push_neg at hflush
      obtain ⟨hlen, hbytes⟩ := hflush
      refine ⟨⟨?_, ?_, ?_⟩, by simp⟩
      · simp [hst.1]
      · simp only [List.length_append, List.length_singleton]
        omega
      · exact Or.inl (by simp [← hst.1]; omega)

theorem workerRun_preserves (cfg : BatchLimits) (h1 : 1 ≤ cfg.batchMaxEntries) :
    ∀ (evs : List WorkerEvent) (st : WorkerState), StateOK cfg st →
      StateOK cfg (workerRun cfg st evs).1 ∧
        ∀ b ∈ (workerRun cfg st evs).2, b ≠ [] ∧ BatchOK cfg b := by
  intro evs
  induction evs with
  | nil => intro st hst; exact ⟨hst, by simp [workerRun]⟩
  | cons ev evs ih =>
    intro st hst
    obtain ⟨hst₁, hf₁⟩ := workerStep_preserves cfg h1 st ev hst
    obtain ⟨hst₂, hf₂⟩ := ih (workerStep cfg st ev).1 hst₁
    refine ⟨hst₂, ?_⟩
    intro b hb
    simp only [workerRun, List.mem_append] at hb
    rcases hb with hb | hb
    · exact hf₁ b hb
    · exact hf₂ b hb

/-- Claim C1: whenever `BatchMaxEntries ≥ 1` (which default population
guarantees for every constructed client), every batch the worker flushes —
on the size triggers, the ticker, or the shutdown drain — is nonempty, has
at most `BatchMaxEntries` entries, and has a byte total (the sum of its
entries' line lengths) of at most `BatchMaxBytes`, except when a single
entry's line alone exceeds `BatchMaxBytes`, in which case that entry forms
a batch of one. -/
theorem flushed_batch_caps (cfg : BatchLimits) (h1 : 1 ≤ cfg.batchMaxEntries)
    (evs : List WorkerEvent) :
    ∀ b ∈ clientRunBatches cfg evs,
      b ≠ [] ∧ b.length ≤ cfg.batchMaxEntries ∧
        (b.sum ≤ cfg.batchMaxBytes ∨ ∃ l, b = [l] ∧ cfg.batchMaxBytes < l) := by
  intro b hb
  have hinit : StateOK cfg { batch := [], batchBytes := 0 } := by
    exact ⟨rfl, by simp [BatchOK]⟩
  obtain ⟨hstf, hflows⟩ := workerRun_preserves cfg h1 evs _ hinit
  obtain ⟨_, hfin⟩ := flushBatch_preserves cfg _ hstf
  unfold clientRunBatches at hb
  rw [List.mem_append] at hb
  rcases hb with hb | hb
  · obtain ⟨hne, hlen, hcap⟩ := hflows b hb
    exact ⟨hne, hlen, hcap⟩
  · obtain ⟨hne, hlen, hcap⟩ := hfin b hb
    exact ⟨hne, hlen, hcap⟩

/-- Witness for C1 at a concrete schedule: caps 2 entries / 10 bytes, three
deliveries of 4-byte lines.  The first flushed batch is `[4, 4]` (two
entries, 8 bytes, within both caps). -/
theorem flushed_batch_caps_witness :
    [4, 4] ∈ clientRunBatches ⟨2, 10⟩
        [WorkerEvent.deliver 4, WorkerEvent.deliver 4, WorkerEvent.deliver 4] ∧
      ([4, 4] ≠ [] ∧ List.length [4, 4] ≤ (2 : Nat) ∧
        (List.sum [4, 4] ≤ (10 : Nat) ∨ ∃ l, [4, 4] = [l] ∧ (10 : Nat) < l)) := by
  refine ⟨by decide, ?_⟩
  exact flushed_batch_caps ⟨2, 10⟩ (by norm_num)
    [WorkerEvent.deliver 4, WorkerEvent.deliver 4, WorkerEvent.deliver 4]
    [4, 4] (by decide)

/-! ## Request-header assembly in `Client.pushWithRetry`

A Go `http.Header` is modelled as a partial map from key to value (the
claims only concern keys already in Go's canonical form, so key
canonicalisation is the identity here).  `req.Header.Set(k, v)` replaces
whatever was stored under `k`.  `pushWithRetry` sets `Content-Type`, then
`Content-Encoding` when nonempty, then every user-supplied header (in some
map-iteration order, modelled as an arbitrary list), then the tenant
header when `TenantID` is nonempty. -/

def HeaderMap : Type := String → Option String

/-- `http.Header.Set`. -/
def setHeader (h : HeaderMap) (k v : String) : HeaderMap :=
  fun k' => if k' = k then some v else h k'

def emptyHeaders : HeaderMap := fun _ => none

/-- The header-assembly steps of `Client.pushWithRetry` (part_010 lines
185–194): transport headers, then user headers, then tenant override. -/
def buildHeaders (contentType contentEncoding : String)
    (userHeaders : List (String × String)) (tenantID : String) : HeaderMap :=
  let h₁ := setHeader emptyHeaders "Content-Type" contentType
  let h₂ := if contentEncoding ≠ "" then setHeader h₁ "Content-Encoding" contentEncoding
            else h₁
  let h₃ := userHeaders.foldl (fun h kv => setHeader h kv.1 kv.2) h₂
  if tenantID ≠ "" then setHeader h₃ "X-Scope-OrgID" tenantID else h₃

theorem setHeader_eq (h : HeaderMap) (k v : String) : setHeader h k v k = some v := by
  simp [setHeader]

theorem setHeader_ne (h : HeaderMap) (k v k' : String) (hk : k' ≠ k) :
    setHeader h k v k' = h k' := by
  simp [setHeader, hk]

theorem foldl_setHeader_ne (k : String) :
    ∀ (uh : List (String × String)) (h : HeaderMap),
      (∀ kv ∈ uh, kv.1 ≠ k) →
      uh.foldl (fun h kv => setHeader h kv.1 kv.2) h k = h k := by
  intro uh
  induction uh with
  | nil => intro h _; rfl
  | cons kv uh ih =>
    intro h hk
    rw [List.foldl_cons, ih _ (fun kv' hkv' => hk kv' (List.mem_cons_of_mem kv hkv'))]
    exact setHeader_ne h kv.1 kv.2 k (fun he => hk kv (List.mem_cons_self kv uh) (he ▸ rfl))

/-- Claim C6: with a nonempty `TenantID`, every push request carries
`X-Scope-OrgID` equal to `TenantID`, whatever the user `Headers` map
contains under that key, because the tenant override is applied last. -/
theorem tenant_header_wins (contentType contentEncoding tenantID : String)
    (userHeaders : List (String × String)) (h : tenantID ≠ "") :
    buildHeaders contentType contentEncoding userHeaders tenantID "X-Scope-OrgID"
      = some tenantID := by
  unfold buildHeaders
  rw [if_pos h]
  exact setHeader_eq _ _ _

/-- Witness for C6, matching the spec's tenant-precedence scenario:
`TenantID = "T"` beats a user header `X-Scope-OrgID: H`. -/
theorem tenant_header_wins_witness :
    buildHeaders "application/x-protobuf" "snappy" [("X-Scope-OrgID", "H")] "T"
      "X-Scope-OrgID" = some "T" :=
  tenant_header_wins "application/x-protobuf" "snappy" "T" [("X-Scope-OrgID", "H")]
    (by simp)

/-- Counterexample to C7 as stated: a user header under `Content-Type`
replaces the encoder's content type, because user headers are applied with
`Set` (replace) semantics after the transport headers. -/
theorem user_header_overrides_cex :
    buildHeaders "application/x-protobuf" "snappy" [("Content-Type", "text/plain")] ""
        "Content-Type" = some "text/plain" ∧
      buildHeaders "application/x-protobuf" "snappy" [("Content-Type", "text/plain")] ""
        "Content-Type" ≠ some "application/x-protobuf" := by
  constructor
  · simp [buildHeaders, setHeader, emptyHeaders]
  · simp [buildHeaders, setHeader, emptyHeaders]

/-- Claim C7 (amended): user headers are applied after the transport
headers with replace semantics, so a user entry under `Content-Type` or
`Content-Encoding` overrides the encoder's metadata; when the user map
contains neither key, every push request's `Content-Type` and (for a
nonempty encoding token) `Content-Encoding` equal the encoder's metadata,
with the tenant override not affecting them. -/
theorem transport_headers_without_user_collision
    (contentType contentEncoding tenantID : String)
    (userHeaders : List (String × String))
    (hct : ∀ kv ∈ userHeaders, kv.1 ≠ "Content-Type")
    (hce : ∀ kv ∈ userHeaders, kv.1 ≠ "Content-Encoding") :
    buildHeaders contentType contentEncoding userHeaders tenantID "Content-Type"
        = some contentType ∧
      (contentEncoding ≠ "" →
        buildHeaders contentType contentEncoding userHeaders tenantID "Content-Encoding"
          = some contentEncoding) := by
  unfold buildHeaders
  constructor
  · by_cases ht : tenantID ≠ ""
    · rw [if_pos ht, setHeader_ne _ _ _ _ (by decide),
        foldl_setHeader_ne "Content-Type" userHeaders _ hct]
      by_cases hc : contentEncoding ≠ ""
      · rw [if_pos hc, setHeader_ne _ _ _ _ (by decide)]
        exact setHeader_eq _ _ _
      · rw [if_neg hc]
        exact setHeader_eq _ _ _
    · rw [if_neg ht, foldl_setHeader_ne "Content-Type" userHeaders _ hct]
      by_cases hc : contentEncoding ≠ ""
      · rw [if_pos hc, setHeader_ne _ _ _ _ (by decide)]
        exact setHeader_eq _ _ _
      · rw [if_neg hc]
        exact setHeader_eq _ _ _
  · intro hc
    by_cases ht : tenantID ≠ ""
    · rw [if_pos ht, setHeader_ne _ _ _ _ (by decide),
        foldl_setHeader_ne "Content-Encoding" userHeaders _ hce, if_pos hc]
      exact setHeader_eq _ _ _
    · rw [if_neg ht, foldl_setHeader_ne "Content-Encoding" userHeaders _ hce, if_pos hc]
      exact setHeader_eq _ _ _

/-- Witness for the amended C7 at a concrete input: one unrelated user
header, protobuf/snappy metadata, tenant set. -/
theorem transport_headers_without_user_collision_witness :
    buildHeaders "application/x-protobuf" "snappy" [("X-Custom", "1")] "T"
        "Content-Type" = some "application/x-protobuf" ∧
      ((("snappy" : String) ≠ "") →
        buildHeaders "application/x-protobuf" "snappy" [("X-Custom", "1")] "T"
          "Content-Encoding" = some "snappy") :=
  transport_headers_without_user_collision "application/x-protobuf" "snappy" "T"
    [("X-Custom", "1")]
    (by intro kv hkv; simp at hkv; simp [hkv])
    (by intro kv hkv; simp at hkv; simp [hkv])

/-! ## Configuration defaulting and validation (`config.go`, `NewClient`)

`Config` keeps only the fields `setDefaults` and `validate` read or write.
Durations are nanosecond counts (`Int`); the float64 `JitterFrac` is
modelled by a rational, which is faithful for the comparison against 0 and
the assignment of the literal 0.2 that `setDefaults` performs. -/

structure RetryConfig where
  maxAttempts : Int
  minBackoff : Int
  maxBackoff : Int
  jitterFrac : ℚ
deriving DecidableEq, Repr

structure Config where
  endpoint : String
  tenantID : String
  encoding : String
  hasHTTPClient : Bool
  queueSize : Int
  batchMaxEntries : Int
  batchMaxBytes : Int
  batchMaxWait : Int
  backpressureMode : String
  retry : RetryConfig
deriving DecidableEq, Repr

/-- `if v <= 0 { v = dflt }` on an integer field. -/
def defaultPos (v dflt : Int) : Int := if v ≤ 0 then dflt else v

/-- `if v == \"\" { v = dflt }` on a string field. -/
def defaultStr (v dflt : String) : String := if v = "" then dflt else v

/-- `Config.setDefaults`.  The source is a sequence of `if` statements, one
per field; no branch reads a field another branch writes, so they are
rendered as independent per-field updates. -/
def Config.setDefaults (c : Config) : Config :=
  { c with
    hasHTTPClient := true
    encoding := defaultStr c.encoding "protobuf-snappy"
    queueSize := defaultPos c.queueSize 1024
    batchMaxEntries := defaultPos c.batchMaxEntries 500
    batchMaxBytes := defaultPos c.batchMaxBytes 1048576
    batchMaxWait := defaultPos c.batchMaxWait 1000000000
    backpressureMode := defaultStr c.backpressureMode "block"
    retry :=
      { maxAttempts := defaultPos c.retry.maxAttempts 5
        minBackoff := defaultPos c.retry.minBackoff 100000000
        maxBackoff := defaultPos c.retry.maxBackoff 3000000000
        jitterFrac := if c.retry.jitterFrac ≤ 0 then 1 / 5 else c.retry.jitterFrac } }

/-- `Config.validate`: the first validation error, or `none`. -/
def Config.validate (c : Config) : Option String :=
  if c.endpoint = "" then some "endpoint is required"
  else if ¬ (c.backpressureMode = "block" ∨ c.backpressureMode = "drop-new" ∨
      c.backpressureMode = "drop-oldest") then some "invalid backpressure mode"
  else if ¬ (c.encoding = "json" ∨ c.encoding = "protobuf-snappy") then
    some "invalid encoding"
  else if c.retry.maxAttempts < 1 then some "retry.maxAttempts must be >= 1"
  else none

/-- The construction path of `NewClient`: populate defaults, then validate;
on success the client holds the defaulted configuration. -/
def newClient (c : Config) : Except String Config :=
  match c.setDefaults.validate with
  | some e => Except.error e
  | none => Except.ok c.setDefaults

/-- Defaulting always leaves `Retry.MaxAttempts` at least 1. -/
theorem setDefaults_maxAttempts (c : Config) :
    1 ≤ c.setDefaults.retry.maxAttempts ∧
      (c.retry.maxAttempts ≤ 0 → c.setDefaults.retry.maxAttempts = 5) := by
  unfold Config.setDefaults defaultPos
  constructor
  · by_cases h : c.retry.maxAttempts ≤ 0
    · simp [h]
    · simp [h]; omega
  · intro h
    simp [h]

/-- A configuration with `Retry.MaxAttempts = 0` (and every other field
left at its zero value except the required endpoint). -/
def lowAttemptsCfg : Config :=
  { endpoint := "http://localhost:3100/loki/api/v1/push"
    tenantID := ""
    encoding := ""
    hasHTTPClient := false
    queueSize := 0
    batchMaxEntries := 0
    batchMaxBytes := 0
    batchMaxWait := 0
    backpressureMode := ""
    retry := { maxAttempts := 0, minBackoff := 0, maxBackoff := 0, jitterFrac := 0 } }

/-- Counterexample to C8 as stated: constructing a client from a
configuration with `Retry.MaxAttempts = 0` succeeds — `NewClient` runs
`setDefaults` (which replaces any `MaxAttempts ≤ 0` with 5) before
`validate`, so the `MaxAttempts < 1` validation check never fires. -/
theorem newClient_low_maxAttempts_cex :
    lowAttemptsCfg.retry.maxAttempts < 1 ∧
      newClient lowAttemptsCfg = Except.ok lowAttemptsCfg.setDefaults ∧
      lowAttemptsCfg.setDefaults.retry.maxAttempts = 5 := by
  refine ⟨by decide, ?_, by decide⟩
  rfl

/-- Unfolding `newClient` outcomes into `validate` results. -/
theorem newClient_error_iff (c : Config) (e : String) :
    newClient c = Except.error e ↔ c.setDefaults.validate = some e := by
  unfold newClient
  rcases hv : c.setDefaults.validate with _ | e'
  · simp
  · simp

theorem newClient_ok_iff (c : Config) (c' : Config) :
    newClient c = Except.ok c' ↔ c.setDefaults.validate = none ∧ c' = c.setDefaults := by
  unfold newClient
  rcases hv : c.setDefaults.validate with _ | e'
  · simp [eq_comm]
  · simp

/-- `validate` after `setDefaults` can never report the `MaxAttempts`
error, because defaulting forces `MaxAttempts ≥ 1`. -/
theorem validate_setDefaults_ne_maxAttempts (c : Config) :
    c.setDefaults.validate ≠ some "retry.maxAttempts must be >= 1" := by
  have hma := (setDefaults_maxAttempts c).1
  unfold Config.validate
  split_ifs with h1 h2 h3 h4
  all_goals simp
  omega

/-- Claim C8 (amended): constructing a client from a configuration with
`Retry.MaxAttempts < 1` does not fail on the `MaxAttempts` validation:
`setDefaults` runs first and replaces any non-positive `MaxAttempts` with
5, so construction succeeds whenever the endpoint is nonempty and the
backpressure mode and encoding are empty or recognized, and the resulting
client has `MaxAttempts = 5`. -/
theorem newClient_low_maxAttempts (c : Config) (h : c.retry.maxAttempts < 1) :
    newClient c ≠ Except.error "retry.maxAttempts must be >= 1" ∧
      (∀ c', newClient c = Except.ok c' → c'.retry.maxAttempts = 5) ∧
      (c.endpoint ≠ "" →
        (c.backpressureMode = "" ∨ c.backpressureMode = "block" ∨
          c.backpressureMode = "drop-new" ∨ c.backpressureMode = "drop-oldest") →
        (c.encoding = "" ∨ c.encoding = "json" ∨ c.encoding = "protobuf-snappy") →
        newClient c = Except.ok c.setDefaults) := by
  have hma : c.setDefaults.retry.maxAttempts = 5 :=
    (setDefaults_maxAttempts c).2 (by omega)
  have hep : c.setDefaults.endpoint = c.endpoint := rfl
  have hmode : c.setDefaults.backpressureMode = defaultStr c.backpressureMode "block" := rfl
  have henc : c.setDefaults.encoding = defaultStr c.encoding "protobuf-snappy" := rfl
  refine ⟨?_, ?_, ?_⟩
  · intro herr
    exact validate_setDefaults_ne_maxAttempts c ((newClient_error_iff c _).mp herr)
  · intro c' hc'
    rw [(newClient_ok_iff c c').mp hc' |>.2]
    exact hma
  · intro he hm hec
    have hv : c.setDefaults.validate = none := by
      unfold Config.validate
      rw [hep, hmode, henc]
      have hm' : defaultStr c.backpressureMode "block" = "block" ∨
          defaultStr c.backpressureMode "block" = "drop-new" ∨
          defaultStr c.backpressureMode "block" = "drop-oldest" := by
        unfold defaultStr
        rcases hm with h | h | h | h <;> simp [h]
      have hec' : defaultStr c.encoding "protobuf-snappy" = "json" ∨
          defaultStr c.encoding "protobuf-snappy" = "protobuf-snappy" := by
        unfold defaultStr
        rcases hec with h | h | h <;> simp [h]
      rw [if_neg he, if_neg (by tauto), if_neg (by tauto), if_neg (by omega)]
    exact (newClient_ok_iff c c.setDefaults).mpr ⟨hv, rfl⟩

/-- Witness for the amended C8: the concrete configuration above (endpoint
set, everything else zero) constructs successfully with `MaxAttempts = 5`. -/
theorem newClient_low_maxAttempts_witness :
    newClient lowAttemptsCfg ≠ Except.error "retry.maxAttempts must be >= 1" ∧
      (∀ c', newClient lowAttemptsCfg = Except.ok c' → c'.retry.maxAttempts = 5) ∧
      (lowAttemptsCfg.endpoint ≠ "" →
        (lowAttemptsCfg.backpressureMode = "" ∨ lowAttemptsCfg.backpressureMode = "block" ∨
          lowAttemptsCfg.backpressureMode = "drop-new" ∨
          lowAttemptsCfg.backpressureMode = "drop-oldest") →
        (lowAttemptsCfg.encoding = "" ∨ lowAttemptsCfg.encoding = "json" ∨
          lowAttemptsCfg.encoding = "protobuf-snappy") →
        newClient lowAttemptsCfg = Except.ok lowAttemptsCfg.setDefaults) :=
  newClient_low_maxAttempts lowAttemptsCfg (by decide)

/-- Claim C10: default population replaces every non-positive
`Retry.JitterFrac` (an explicit 0 included) with 0.2, so every constructed
client carries a strictly positive jitter fraction into its backoff
computation — jitter cannot be disabled through configuration. -/
theorem jitterFrac_default (c : Config) :
    (c.retry.jitterFrac ≤ 0 → c.setDefaults.retry.jitterFrac = 1 / 5) ∧
      0 < c.setDefaults.retry.jitterFrac ∧
      (∀ c', newClient c = Except.ok c' → 0 < c'.retry.jitterFrac) := by
  have hj : c.setDefaults.retry.jitterFrac =
      if c.retry.jitterFrac ≤ 0 then 1 / 5 else c.retry.jitterFrac := rfl
  refine ⟨?_, ?_, ?_⟩
  · intro h
    rw [hj, if_pos h]
  · rw [hj]
    by_cases h : c.retry.jitterFrac ≤ 0
    · rw [if_pos h]; norm_num
    · rw [if_neg h]; linarith [not_le.mp h]
  · intro c' hc'
    rw [(newClient_ok_iff c c').mp hc' |>.2, hj]
    by_cases h : c.retry.jitterFrac ≤ 0
    · rw [if_pos h]; norm_num
    · rw [if_neg h]; linarith [not_le.mp h]

/-- Witness for C10 at the concrete configuration with `JitterFrac = 0`:
defaulting yields exactly 0.2 and positivity holds. -/
theorem jitterFrac_default_witness :
    lowAttemptsCfg.setDefaults.retry.jitterFrac = 1 / 5 ∧
      0 < lowAttemptsCfg.setDefaults.retry.jitterFrac :=
  ⟨(jitterFrac_default lowAttemptsCfg).1 (le_of_eq rfl),
    (jitterFrac_default lowAttemptsCfg).2.1⟩

/-! ## The vendored protobuf push codec (`internal/push`)

Byte strings are `List Nat` (each element a byte).  The `protowire`
primitives the codec uses are modelled on the protobuf wire format:
base-128 varints (least-significant group first, continuation bit on every
group but the last), tags `num << 3 | wiretype`, and length-delimited
byte fields.  `ConsumeVarint` reads at most ten bytes, as in `protowire`. -/

/-- `protowire.AppendVarint`. -/
def appendVarint (v : Nat) : List Nat :=
  if _ : v < 128 then [v] else (v % 128 + 128) :: appendVarint (v / 128)
termination_by v
decreasing_by exact Nat.div_lt_self (by omega) (by norm_num)

/-- `protowire.ConsumeVarint`, fuelled by the ten-byte limit: the parsed
value and the number of bytes consumed, or `none` on truncated input. -/
def consumeVarintAux : Nat → List Nat → Option (Nat × Nat)
  | _, [] => none
  | 0, _ :: _ => none
  | fuel + 1, b :: rest =>
    if b < 128 then some (b, 1)
    else
      match consumeVarintAux fuel rest with
      | some (v, n) => some (b % 128 + 128 * v, n + 1)
      | none => none

def consumeVarint (l : List Nat) : Option (Nat × Nat) := consumeVarintAux 10 l

/-- `protowire.AppendTag`: the varint of `num << 3 | typ`. -/
def appendTag (num typ : Nat) : List Nat := appendVarint (num * 8 + typ)

/-- `protowire.AppendBytes` / `AppendString`: length varint then raw bytes. -/
def appendBytes (b : List Nat) : List Nat := appendVarint b.length ++ b

/-- `protowire.ConsumeTag`: field number and wire type (field number 0 is
rejected). -/
def consumeTag (l : List Nat) : Option (Nat × Nat × Nat) :=
  match consumeVarint l with
  | none => none
  | some (v, n) => if v / 8 < 1 then none else some (v / 8, v % 8, n)

/-- `protowire.ConsumeBytes` / `ConsumeString`. -/
def consumeBytes (l : List Nat) : Option (List Nat × Nat) :=
  match consumeVarint l with
  | none => none
  | some (len, n) =>
    if (l.drop n).length < len then none
    else some ((l.drop n).take len, n + len)

/-- `protowire.ConsumeFieldValue`, for the wire types that occur on the
push path (varint, fixed64, bytes, fixed32); group wire types are rejected
like any unknown type. -/
def consumeFieldValue (typ : Nat) (l : List Nat) : Option Nat :=
  if typ = 0 then (consumeVarint l).map Prod.snd
  else if typ = 1 then (if l.length < 8 then none else some 8)
  else if typ = 2 then (consumeBytes l).map Prod.snd
  else if typ = 5 then (if l.length < 4 then none else some 4)
  else none

/-- A Go `time.Time` instant: Unix seconds, and nanoseconds within the
second (`Nanosecond()` always lies in `[0, 1e9)`). -/
structure GoTime where
  sec : Int
  nsec : Int
deriving DecidableEq, Repr

/-- The zero `time.Time{}` (January 1, year 1 UTC) as a Unix instant. -/
def goTimeZero : GoTime := ⟨-62135596800, 0⟩

/-- Go's `uint64(x)` conversion of a signed integer. -/
def toUInt64 (x : Int) : Nat := (x % (2 ^ 64)).toNat

/-- Go's `int64(v)` conversion of an unsigned 64-bit value. -/
def ofUInt64AsInt64 (v : Nat) : Int :=
  if v < 2 ^ 63 then (v : Int) else (v : Int) - 2 ^ 64

/-- Go's `int32(v)` conversion of an unsigned 64-bit value. -/
def ofUInt64AsInt32 (v : Nat) : Int :=
  if v % 2 ^ 32 < 2 ^ 31 then ((v % 2 ^ 32 : Nat) : Int)
  else ((v % 2 ^ 32 : Nat) : Int) - 2 ^ 32

/-- Go's `time.Unix(sec, nsec)`: normalize `nsec` into `[0, 1e9)`
(Go's `/` truncates towards zero). -/
def timeUnix (sec nsec : Int) : GoTime :=
  if nsec < 0 ∨ 1000000000 ≤ nsec then
    let n := Int.tdiv nsec 1000000000
    let sec' := sec + n
    let nsec' := nsec - n * 1000000000
    if nsec' < 0 then ⟨sec' - 1, nsec' + 1000000000⟩ else ⟨sec', nsec'⟩
  else ⟨sec, nsec⟩

/-- `push.Entry`. -/
structure PushEntry where
  timestamp : GoTime
  line : List Nat
deriving DecidableEq, Repr

/-- `push.Stream`. -/
structure PushStream where
  labels : List Nat
  entries : List PushEntry
deriving DecidableEq, Repr

/-- `push.PushRequest`. -/
structure PushRequest where
  streams : List PushStream
  format : List Nat
deriving DecidableEq, Repr

/-- `marshalTimestamp`: `seconds` (field 1) and `nanos` (field 2), both
varints, converted through `uint64`. -/
def marshalTimestamp (t : GoTime) : List Nat :=
  appendTag 1 0 ++ appendVarint (toUInt64 t.sec) ++
    appendTag 2 0 ++ appendVarint (toUInt64 t.nsec)

/-- `Entry.marshal`: the timestamp message (field 1, always present) and
the line (field 2, omitted when empty). -/
def entryMarshal (e : PushEntry) : List Nat :=
  appendTag 1 2 ++ appendBytes (marshalTimestamp e.timestamp) ++
    (if e.line = [] then [] else appendTag 2 2 ++ appendBytes e.line)

/-- The encoding of a stream's repeated entry fields. -/
def entriesEnc (es : List PushEntry) : List Nat :=
  es.flatMap fun e => appendTag 2 2 ++ appendBytes (entryMarshal e)

/-- `Stream.marshal`: the label string (field 1, omitted when empty) and
the repeated entries (field 2). -/
def streamMarshal (s : PushStream) : List Nat :=
  (if s.labels = [] then [] else appendTag 1 2 ++ appendBytes s.labels) ++
    entriesEnc s.entries

/-- The encoding of a request's repeated stream fields. -/
def streamsEnc (ss : List PushStream) : List Nat :=
  ss.flatMap fun s => appendTag 1 2 ++ appendBytes (streamMarshal s)

/-- `PushRequest.Marshal`: the repeated streams (field 1) and the format
string (field 2, omitted when empty).  `Marshal` never fails. -/
def pushRequestMarshal (m : PushRequest) : List Nat :=
  streamsEnc m.streams ++
    (if m.format = [] then [] else appendTag 2 2 ++ appendBytes m.format)

/-- The field loop of `unmarshalTimestamp`, fuelled by the input length
(every iteration consumes at least one byte). -/
def unmarshalTimestampLoop : Nat → Int → Int → List Nat → Option (Int × Int)
  | _, sec, nanos, [] => some (sec, nanos)
  | 0, _, _, _ :: _ => none
  | fuel + 1, sec, nanos, l =>
    match consumeTag l with
    | none => none
    | some (num, typ, n) =>
      let l₁ := l.drop n
      if num = 1 then
        if typ ≠ 0 then none
        else
          match consumeVarint l₁ with
          | none => none
          | some (v, n₂) =>
            unmarshalTimestampLoop fuel (ofUInt64AsInt64 v) nanos (l₁.drop n₂)
      else if num = 2 then
        if typ ≠ 0 then none
        else
          match consumeVarint l₁ with
          | none => none
          | some (v, n₂) =>
            unmarshalTimestampLoop fuel sec (ofUInt64AsInt32 v) (l₁.drop n₂)
      else
        match consumeFieldValue typ l₁ with
        | none => none
        | some n₂ => unmarshalTimestampLoop fuel sec nanos (l₁.drop n₂)

/-- `unmarshalTimestamp`: run the loop from zero-initialised `sec`/`nanos`
and build the instant with `time.Unix(sec, int64(nanos)).UTC()`. -/
def unmarshalTimestamp (l : List Nat) : Option GoTime :=
  match unmarshalTimestampLoop l.length 0 0 l with
  | none => none
  | some (sec, nanos) => some (timeUnix sec nanos)

/-- The field loop of `Entry.unmarshal` on the zero `Entry`. -/
def unmarshalEntryLoop : Nat → PushEntry → List Nat → Option PushEntry
  | _, acc, [] => some acc
  | 0, _, _ :: _ => none
  | fuel + 1, acc, l =>
    match consumeTag l with
    | none => none
    | some (num, typ, n) =>
      let l₁ := l.drop n
      if num = 1 then
        if typ ≠ 2 then none
        else
          match consumeBytes l₁ with
          | none => none
          | some (msg, n₂) =>
            match unmarshalTimestamp msg with
            | none => none
            | some ts => unmarshalEntryLoop fuel { acc with timestamp := ts } (l₁.drop n₂)
      else if num = 2 then
        if typ ≠ 2 then none
        else
          match consumeBytes l₁ with
          | none => none
          | some (v, n₂) => unmarshalEntryLoop fuel { acc with line := v } (l₁.drop n₂)
      else
        match consumeFieldValue typ l₁ with
        | none => none
        | some n₂ => unmarshalEntryLoop fuel acc (l₁.drop n₂)

def unmarshalEntry (l : List Nat) : Option PushEntry :=
  unmarshalEntryLoop l.length ⟨goTimeZero, []⟩ l

/-- The field loop of `Stream.unmarshal` on the zero `Stream`. -/
def unmarshalStreamLoop : Nat → PushStream → List Nat → Option PushStream
  | _, acc, [] => some acc
  | 0, _, _ :: _ => none
  | fuel + 1, acc, l =>
    match consumeTag l with
    | none => none
    | some (num, typ, n) =>
      let l₁ := l.drop n
      if num = 1 then
        if typ ≠ 2 then none
        else
          match consumeBytes l₁ with
          | none => none
          | some (v, n₂) => unmarshalStreamLoop fuel { acc with labels := v } (l₁.drop n₂)
      else if num = 2 then
        if typ ≠ 2 then none
        else
          match consumeBytes l₁ with
          | none => none
          | some (msg, n₂) =>
            match unmarshalEntry msg with
            | none => none
            | some e =>
              unmarshalStreamLoop fuel { acc with entries := acc.entries ++ [e] } (l₁.drop n₂)
      else
        match consumeFieldValue typ l₁ with
        | none => none
        | some n₂ => unmarshalStreamLoop fuel acc (l₁.drop n₂)

def unmarshalStream (l : List Nat) : Option PushStream :=
  unmarshalStreamLoop l.length ⟨[], []⟩ l

/-- The field loop of `PushRequest.Unmarshal` on the zero `PushRequest`. -/
def unmarshalPushRequestLoop : Nat → PushRequest → List Nat → Option PushRequest
  | _, acc, [] => some acc
  | 0, _, _ :: _ => none
  | fuel + 1, acc, l =>
    match consumeTag l with
    | none => none
    | some (num, typ, n) =>
      let l₁ := l.drop n
      if num = 1 then
        if typ ≠ 2 then none
        else
          match consumeBytes l₁ with
          | none => none
          | some (msg, n₂) =>
            match unmarshalStream msg with
            | none => none
            | some s =>
              unmarshalPushRequestLoop fuel { acc with streams := acc.streams ++ [s] } (l₁.drop n₂)
      else if num = 2 then
        if typ ≠ 2 then none
        else
          match consumeBytes l₁ with
          | none => none
          | some (v, n₂) => unmarshalPushRequestLoop fuel { acc with format := v } (l₁.drop n₂)
      else
        match consumeFieldValue typ l₁ with
        | none => none
        | some n₂ => unmarshalPushRequestLoop fuel acc (l₁.drop n₂)

def unmarshalPushRequest (l : List Nat) : Option PushRequest :=
  unmarshalPushRequestLoop l.length ⟨[], []⟩ l

/-! Well-formedness of the values the Go types can hold: `Unix()` returns
an `int64`, `Nanosecond()` lies in `[0, 1e9)`, and Go slices and strings
are far below `2^64` elements (so every length varint fits `uint64`). -/

def WFTime (t : GoTime) : Prop :=
  -(2 ^ 63) ≤ t.sec ∧ t.sec < 2 ^ 63 ∧ 0 ≤ t.nsec ∧ t.nsec < 1000000000

def WFEntry (e : PushEntry) : Prop :=
  WFTime e.timestamp ∧ e.line.length < 2 ^ 64

def WFStream (s : PushStream) : Prop :=
  s.labels ≠ [] ∧ s.labels.length < 2 ^ 64 ∧
    (∀ e ∈ s.entries, WFEntry e ∧ (entryMarshal e).length < 2 ^ 64)

def WFRequest (m : PushRequest) : Prop :=
  (∀ s ∈ m.streams, WFStream s ∧ (streamMarshal s).length < 2 ^ 64) ∧
    m.format.length < 2 ^ 64

/-! Round-trip laws for the wire primitives. -/

theorem appendVarint_lt (v : Nat) (h : v < 128) : appendVarint v = [v] := by
  rw [appendVarint]
  simp [h]

theorem appendVarint_ge (v : Nat) (h : ¬ v < 128) :
    appendVarint v = (v % 128 + 128) :: appendVarint (v / 128) := by
  rw [appendVarint]
  simp [h]

theorem consumeVarintAux_append (fuel : Nat) :
    ∀ v rest, v < 128 ^ (fuel + 1) →
      consumeVarintAux (fuel + 1) (appendVarint v ++ rest)
        = some (v, (appendVarint v).length) := by
  induction fuel with
  | zero =>
    intro v rest hv
    have h : v < 128 := by simpa using hv
    rw [appendVarint_lt v h]
    simp [consumeVarintAux, h]
  | succ fuel ih =>
    intro v rest hv
    by_cases h : v < 128
    · rw [appendVarint_lt v h]
      simp [consumeVarintAux, h]
    · rw [appendVarint_ge v h, List.cons_append]
      have hrec : v / 128 < 128 ^ (fuel + 1) := by
        rw [pow_succ] at hv
        exact Nat.div_lt_of_lt_mul (by linarith [hv])
      have hb : ¬ v % 128 + 128 < 128 := by omega
      rw [consumeVarintAux, if_neg hb, ih (v / 128) rest hrec]
      dsimp only
      have harith : (v % 128 + 128) % 128 + 128 * (v / 128) = v := by omega
      rw [harith]
      simp

theorem consumeVarint_append (v : Nat) (rest : List Nat) (hv : v < 2 ^ 64) :
    consumeVarint (appendVarint v ++ rest) = some (v, (appendVarint v).length) :=
  consumeVarintAux_append 9 v rest (by norm_num at hv ⊢; omega)

theorem consumeBytes_append (b rest : List Nat) (hb : b.length < 2 ^ 64) :
    consumeBytes (appendBytes b ++ rest) = some (b, (appendBytes b).length) := by
  unfold consumeBytes appendBytes
  rw [List.append_assoc, consumeVarint_append b.length (b ++ rest) hb]
  dsimp only
  rw [List.drop_left, if_neg (by simp), List.take_left]
  simp

theorem consumeTag_append (num typ : Nat) (rest : List Nat) (h1 : 1 ≤ num)
    (h8 : typ < 8) (hv : num * 8 + typ < 2 ^ 64) :
    consumeTag (appendTag num typ ++ rest)
      = some (num, typ, (appendTag num typ).length) := by
  unfold consumeTag appendTag
  rw [consumeVarint_append _ _ hv]
  dsimp only
  have hdiv : (num * 8 + typ) / 8 = num := by omega
  have hmod : (num * 8 + typ) % 8 = typ := by omega
  rw [hdiv, hmod, if_neg (by omega)]

/-! Round trip of the timestamp message. -/

theorem ofUInt64AsInt64_toUInt64 (x : Int) (h1 : -(2 ^ 63) ≤ x) (h2 : x < 2 ^ 63) :
    ofUInt64AsInt64 (toUInt64 x) = x := by
  unfold ofUInt64AsInt64 toUInt64
  split_ifs with h <;> omega

theorem ofUInt64AsInt32_toUInt64 (n : Int) (h1 : 0 ≤ n) (h2 : n < 1000000000) :
    ofUInt64AsInt32 (toUInt64 n) = n := by
  unfold ofUInt64AsInt32 toUInt64
  split_ifs with h <;> omega

theorem timeUnix_eq (sec nsec : Int) (h1 : 0 ≤ nsec) (h2 : nsec < 1000000000) :
    timeUnix sec nsec = ⟨sec, nsec⟩ := by
  unfold timeUnix
  rw [if_neg (by omega)]

theorem appendTag_sec : appendTag 1 0 = [8] := by
  rw [appendTag]
  exact appendVarint_lt 8 (by norm_num)

theorem appendTag_nanos : appendTag 2 0 = [16] := by
  rw [appendTag]
  exact appendVarint_lt 16 (by norm_num)

theorem unmarshalTimestampLoop_sec (fuel : Nat) (sec nanos : Int) (v : Nat)
    (rest : List Nat) (hv : v < 2 ^ 64) :
    unmarshalTimestampLoop (fuel + 1) sec nanos (appendTag 1 0 ++ (appendVarint v ++ rest))
      = unmarshalTimestampLoop fuel (ofUInt64AsInt64 v) nanos rest := by
  have htag := consumeTag_append 1 0 (appendVarint v ++ rest)
    (by norm_num) (by norm_num) (by norm_num)
  rw [appendTag_sec] at htag ⊢
  rw [List.singleton_append] at htag ⊢
  rw [unmarshalTimestampLoop, htag]
  dsimp only
  simp only [List.length_singleton, List.drop_succ_cons, List.drop_zero]
  rw [consumeVarint_append v rest hv]
  simp [List.drop_left]
  simp

theorem unmarshalTimestampLoop_nanos (fuel : Nat) (sec nanos : Int) (v : Nat)
    (rest : List Nat) (hv : v < 2 ^ 64) :
    unmarshalTimestampLoop (fuel + 1) sec nanos (appendTag 2 0 ++ (appendVarint v ++ rest))
      = unmarshalTimestampLoop fuel sec (ofUInt64AsInt32 v) rest := by
  have htag := consumeTag_append 2 0 (appendVarint v ++ rest)
    (by norm_num) (by norm_num) (by norm_num)
  rw [appendTag_nanos] at htag ⊢
  rw [List.singleton_append] at htag ⊢
  rw [unmarshalTimestampLoop, htag]
  dsimp only
  simp only [List.length_singleton, List.drop_succ_cons, List.drop_zero]
  rw [consumeVarint_append v rest hv]
  simp [List.drop_left]
  simp

theorem appendVarint_length_pos (v : Nat) : 1 ≤ (appendVarint v).length := by
  by_cases h : v < 128
  · rw [appendVarint_lt v h]; simp
  · rw [appendVarint_ge v h]; simp

theorem unmarshalTimestamp_marshal (t : GoTime) (h : WFTime t) :
    unmarshalTimestamp (marshalTimestamp t) = some t := by
  obtain ⟨h1, h2, h3, h4⟩ := h
  have hs : toUInt64 t.sec < 2 ^ 64 := by
    unfold toUInt64
    omega
  have hn : toUInt64 t.nsec < 2 ^ 64 := by
    unfold toUInt64
    omega
  unfold unmarshalTimestamp
  set L := marshalTimestamp t with hL
  have hshape : L = appendTag 1 0 ++ (appendVarint (toUInt64 t.sec) ++
      (appendTag 2 0 ++ (appendVarint (toUInt64 t.nsec) ++ []))) := by
    rw [hL]
    unfold marshalTimestamp
    simp [List.append_assoc]
  have hlen : 2 ≤ L.length := by
    rw [hshape]
    have hp1 := appendVarint_length_pos (toUInt64 t.sec)
    have hp2 := appendVarint_length_pos (toUInt64 t.nsec)
    simp [List.length_append, appendTag_sec, appendTag_nanos]
    omega
  obtain ⟨f, hf⟩ : ∃ f, L.length = f + 1 + 1 := ⟨L.length - 2, by omega⟩
  rw [hf, hshape]
  rw [unmarshalTimestampLoop_sec (f + 1) 0 0 _ _ hs]
  rw [unmarshalTimestampLoop_nanos f _ _ _ _ hn]
  rw [unmarshalTimestampLoop]
  dsimp only
  rw [ofUInt64AsInt64_toUInt64 t.sec h1 h2, ofUInt64AsInt32_toUInt64 t.nsec h3 h4,
    timeUnix_eq t.sec t.nsec h3 h4]

/-! Round trip of the entry message. -/

theorem appendTag_bytes1 : appendTag 1 2 = [10] := by
  rw [appendTag]
  exact appendVarint_lt 10 (by norm_num)

theorem appendTag_bytes2 : appendTag 2 2 = [18] := by
  rw [appendTag]
  exact appendVarint_lt 18 (by norm_num)

theorem appendVarint_length_le (k : Nat) :
    ∀ v, v < 128 ^ (k + 1) → (appendVarint v).length ≤ k + 1 := by
  induction k with
  | zero =>
    intro v hv
    rw [appendVarint_lt v (by simpa using hv)]
    simp
  | succ k ih =>
    intro v hv
    by_cases h : v < 128
    · rw [appendVarint_lt v h]
      simp
    · rw [appendVarint_ge v h]
      simp only [List.length_cons]
      have hrec : v / 128 < 128 ^ (k + 1) := by
        rw [pow_succ] at hv
        exact Nat.div_lt_of_lt_mul (by linarith)
      have := ih (v / 128) hrec
      omega

theorem toUInt64_lt (x : Int) : toUInt64 x < 2 ^ 64 := by
  unfold toUInt64
  omega

theorem marshalTimestamp_length_le (t : GoTime) : (marshalTimestamp t).length ≤ 22 := by
  unfold marshalTimestamp
  have h1 := appendVarint_length_le 9 (toUInt64 t.sec)
    (lt_of_lt_of_le (toUInt64_lt t.sec) (by norm_num))
  have h2 := appendVarint_length_le 9 (toUInt64 t.nsec)
    (lt_of_lt_of_le (toUInt64_lt t.nsec) (by norm_num))
  simp [List.length_append, appendTag_sec, appendTag_nanos]
  omega

theorem unmarshalEntryLoop_ts (fuel : Nat) (acc : PushEntry) (msg rest : List Nat)
    (hmsg : msg.length < 2 ^ 64) (ts : GoTime) (hts : unmarshalTimestamp msg = some ts) :
    unmarshalEntryLoop (fuel + 1) acc (appendTag 1 2 ++ (appendBytes msg ++ rest))
      = unmarshalEntryLoop fuel { acc with timestamp := ts } rest := by
  have htag := consumeTag_append 1 2 (appendBytes msg ++ rest)
    (by norm_num) (by norm_num) (by norm_num)
  rw [appendTag_bytes1] at htag ⊢
  rw [List.singleton_append] at htag ⊢
  rw [unmarshalEntryLoop, htag]
  dsimp only
  simp only [List.length_singleton, List.drop_succ_cons, List.drop_zero]
  rw [consumeBytes_append msg rest hmsg]
  simp [List.drop_left, hts]
  simp

theorem unmarshalEntryLoop_line (fuel : Nat) (acc : PushEntry) (v rest : List Nat)
    (hv : v.length < 2 ^ 64) :
    unmarshalEntryLoop (fuel + 1) acc (appendTag 2 2 ++ (appendBytes v ++ rest))
      = unmarshalEntryLoop fuel { acc with line := v } rest := by
  have htag := consumeTag_append 2 2 (appendBytes v ++ rest)
    (by norm_num) (by norm_num) (by norm_num)
  rw [appendTag_bytes2] at htag ⊢
  rw [List.singleton_append] at htag ⊢
  rw [unmarshalEntryLoop, htag]
  dsimp only
  simp only [List.length_singleton, List.drop_succ_cons, List.drop_zero]
  rw [consumeBytes_append v rest hv]
  simp [List.drop_left]
  simp

theorem unmarshalEntry_marshal (e : PushEntry) (hwf : WFEntry e) :
    unmarshalEntry (entryMarshal e) = some e := by
  obtain ⟨hts, hline⟩ := hwf
  have htsr := unmarshalTimestamp_marshal e.timestamp hts
  have htslen : (marshalTimestamp e.timestamp).length < 2 ^ 64 :=
    lt_of_le_of_lt (marshalTimestamp_length_le e.timestamp) (by norm_num)
  unfold unmarshalEntry
  set L := entryMarshal e with hL
  by_cases hl : e.line = []
  · have hshape : L = appendTag 1 2 ++ (appendBytes (marshalTimestamp e.timestamp) ++ []) := by
      rw [hL]
      unfold entryMarshal
      simp [hl, List.append_assoc]
    have hlen : 1 ≤ L.length := by
      rw [hshape]
      simp [appendTag_bytes1]
    obtain ⟨f, hf⟩ : ∃ f, L.length = f + 1 := ⟨L.length - 1, by omega⟩
    rw [hf, hshape, unmarshalEntryLoop_ts f _ _ _ htslen _ htsr, unmarshalEntryLoop]
    cases e with
    | mk ts line =>
      simp only at hl
      subst hl
      rfl
  · have hshape : L = appendTag 1 2 ++ (appendBytes (marshalTimestamp e.timestamp) ++
        (appendTag 2 2 ++ (appendBytes e.line ++ []))) := by
      rw [hL]
      unfold entryMarshal
      simp [hl, List.append_assoc]
    have hlen : 2 ≤ L.length := by
      rw [hshape]
      simp [appendTag_bytes1, appendTag_bytes2]
      omega
    obtain ⟨f, hf⟩ : ∃ f, L.length = f + 1 + 1 := ⟨L.length - 2, by omega⟩
    rw [hf, hshape, unmarshalEntryLoop_ts (f + 1) _ _ _ htslen _ htsr,
      unmarshalEntryLoop_line f _ _ _ hline, unmarshalEntryLoop]

/-! Round trip of the stream message. -/

theorem unmarshalStreamLoop_labels (fuel : Nat) (acc : PushStream) (v rest : List Nat)
    (hv : v.length < 2 ^ 64) :
    unmarshalStreamLoop (fuel + 1) acc (appendTag 1 2 ++ (appendBytes v ++ rest))
      = unmarshalStreamLoop fuel { acc with labels := v } rest := by
  have htag := consumeTag_append 1 2 (appendBytes v ++ rest)
    (by norm_num) (by norm_num) (by norm_num)
  rw [appendTag_bytes1] at htag ⊢
  rw [List.singleton_append] at htag ⊢
  rw [unmarshalStreamLoop, htag]
  dsimp only
  simp only [List.length_singleton, List.drop_succ_cons, List.drop_zero]
  rw [consumeBytes_append v rest hv]
  simp [List.drop_left]
  simp

theorem unmarshalStreamLoop_entry (fuel : Nat) (acc : PushStream) (msg rest : List Nat)
    (hmsg : msg.length < 2 ^ 64) (e : PushEntry) (he : unmarshalEntry msg = some e) :
    unmarshalStreamLoop (fuel + 1) acc (appendTag 2 2 ++ (appendBytes msg ++ rest))
      = unmarshalStreamLoop fuel { acc with entries := acc.entries ++ [e] } rest := by
  have htag := consumeTag_append 2 2 (appendBytes msg ++ rest)
    (by norm_num) (by norm_num) (by norm_num)
  rw [appendTag_bytes2] at htag ⊢
  rw [List.singleton_append] at htag ⊢
  rw [unmarshalStreamLoop, htag]
  dsimp only
  simp only [List.length_singleton, List.drop_succ_cons, List.drop_zero]
  rw [consumeBytes_append msg rest hmsg]
  simp [List.drop_left, he]
  simp

theorem unmarshalStreamLoop_entries :
    ∀ (es : List PushEntry),
      (∀ e ∈ es, WFEntry e ∧ (entryMarshal e).length < 2 ^ 64) →
      ∀ fuel (acc : PushStream), (entriesEnc es).length ≤ fuel →
        unmarshalStreamLoop fuel acc (entriesEnc es)
          = some { acc with entries := acc.entries ++ es } := by
  intro es
  induction es with
  | nil =>
    intro _ fuel acc _
    rw [entriesEnc]
    simp [unmarshalStreamLoop]
  | cons e es ih =>
    intro hwf fuel acc hfuel
    have hee : entriesEnc (e :: es)
        = appendTag 2 2 ++ (appendBytes (entryMarshal e) ++ entriesEnc es) := by
      rw [entriesEnc, List.flatMap_cons]
      simp [entriesEnc, List.append_assoc]
    obtain ⟨hwe, hlen⟩ := hwf e (List.mem_cons_self e es)
    have hfuel1 : 1 ≤ fuel := by
      rw [hee] at hfuel
      simp [appendTag_bytes2] at hfuel
      omega
    obtain ⟨f, hf⟩ : ∃ f, fuel = f + 1 := ⟨fuel - 1, by omega⟩
    subst hf
    rw [hee, unmarshalStreamLoop_entry f _ _ _ hlen e (unmarshalEntry_marshal e hwe)]
    rw [ih (fun e' he' => hwf e' (List.mem_cons_of_mem e he')) f _ ?hfuel2]
    · simp
    case hfuel2 =>
      rw [hee] at hfuel
      simp [appendTag_bytes2] at hfuel
      omega

theorem unmarshalStream_marshal (s : PushStream) (hwf : WFStream s) :
    unmarshalStream (streamMarshal s) = some s := by
  obtain ⟨hlne, hllen, hes⟩ := hwf
  unfold unmarshalStream
  set L := streamMarshal s with hL
  have hshape : L = appendTag 1 2 ++ (appendBytes s.labels ++ entriesEnc s.entries) := by
    rw [hL]
    unfold streamMarshal
    simp [hlne, List.append_assoc]
  have hlb : L.length
      = 1 + ((appendBytes s.labels).length + (entriesEnc s.entries).length) := by
    rw [hshape]
    simp [appendTag_bytes1]
    omega
  have hlb2 : L.length
      = ((appendBytes s.labels).length + (entriesEnc s.entries).length) + 1 := by omega
  rw [hlb2, hshape, unmarshalStreamLoop_labels _ _ _ _ hllen]
  rw [unmarshalStreamLoop_entries s.entries hes _ _ (by omega)]
  cases s
  simp

/-! Round trip of the whole push request. -/

theorem unmarshalPushRequestLoop_stream (fuel : Nat) (acc : PushRequest)
    (msg rest : List Nat) (hmsg : msg.length < 2 ^ 64) (s : PushStream)
    (hs : unmarshalStream msg = some s) :
    unmarshalPushRequestLoop (fuel + 1) acc (appendTag 1 2 ++ (appendBytes msg ++ rest))
      = unmarshalPushRequestLoop fuel { acc with streams := acc.streams ++ [s] } rest := by
  have htag := consumeTag_append 1 2 (appendBytes msg ++ rest)
    (by norm_num) (by norm_num) (by norm_num)
  rw [appendTag_bytes1] at htag ⊢
  rw [List.singleton_append] at htag ⊢
  rw [unmarshalPushRequestLoop, htag]
  dsimp only
  simp only [List.length_singleton, List.drop_succ_cons, List.drop_zero]
  rw [consumeBytes_append msg rest hmsg]
  simp [List.drop_left, hs]
  simp

theorem unmarshalPushRequestLoop_format (fuel : Nat) (acc : PushRequest)
    (v rest : List Nat) (hv : v.length < 2 ^ 64) :
    unmarshalPushRequestLoop (fuel + 1) acc (appendTag 2 2 ++ (appendBytes v ++ rest))
      = unmarshalPushRequestLoop fuel { acc with format := v } rest := by
  have htag := consumeTag_append 2 2 (appendBytes v ++ rest)
    (by norm_num) (by norm_num) (by norm_num)
  rw [appendTag_bytes2] at htag ⊢
  rw [List.singleton_append] at htag ⊢
  rw [unmarshalPushRequestLoop, htag]
  dsimp only
  simp only [List.length_singleton, List.drop_succ_cons, List.drop_zero]
  rw [consumeBytes_append v rest hv]
  simp [List.drop_left]
  simp

theorem streamsEnc_cons (s : PushStream) (ss : List PushStream) :
    streamsEnc (s :: ss)
      = appendTag 1 2 ++ (appendBytes (streamMarshal s) ++ streamsEnc ss) := by
  rw [streamsEnc, List.flatMap_cons]
  simp [streamsEnc, List.append_assoc]

theorem unmarshalPushRequestLoop_streams :
    ∀ (ss : List PushStream),
      (∀ s ∈ ss, WFStream s ∧ (streamMarshal s).length < 2 ^ 64) →
      ∀ fuel (acc : PushRequest) (rest : List Nat),
        (streamsEnc ss).length ≤ fuel →
        unmarshalPushRequestLoop fuel acc (streamsEnc ss ++ rest)
          = unmarshalPushRequestLoop (fuel - ss.length)
              { acc with streams := acc.streams ++ ss } rest := by
  intro ss
  induction ss with
  | nil =>
    intro _ fuel acc rest _
    rw [streamsEnc]
    simp
  | cons s ss ih =>
    intro hwf fuel acc rest hfuel
    obtain ⟨hws, hlen⟩ := hwf s (List.mem_cons_self s ss)
    have hfuel1 : 1 ≤ fuel := by
      rw [streamsEnc_cons] at hfuel
      simp [appendTag_bytes1] at hfuel
      omega
    obtain ⟨f, hf⟩ : ∃ f, fuel = f + 1 := ⟨fuel - 1, by omega⟩
    subst hf
    rw [streamsEnc_cons, List.append_assoc, List.append_assoc,
      unmarshalPushRequestLoop_stream f _ _ _ hlen s (unmarshalStream_marshal s hws)]
    rw [ih (fun s' hs' => hwf s' (List.mem_cons_of_mem s hs')) f _ rest ?hfuel2]
    · simp
    case hfuel2 =>
      rw [streamsEnc_cons] at hfuel
      simp [appendTag_bytes1] at hfuel
      omega

theorem streamsEnc_length_ge (ss : List PushStream) :
    ss.length ≤ (streamsEnc ss).length := by
  induction ss with
  | nil => simp [streamsEnc]
  | cons s ss ih =>
    rw [streamsEnc_cons]
    simp [appendTag_bytes1, appendBytes]
    omega

/-- Claim C9: for every push request the binary encoder assembles (each
stream carrying a nonempty canonical label-set string and its entries, in
order), unmarshalling the marshalled bytes yields exactly the same
request: the same streams with the same label-set strings and the same
entries (timestamp and line) in the same per-stream order. -/
theorem pushRequest_roundtrip (m : PushRequest) (hwf : WFRequest m) :
    unmarshalPushRequest (pushRequestMarshal m) = some m := by
  obtain ⟨hss, hfmt⟩ := hwf
  unfold unmarshalPushRequest
  set L := pushRequestMarshal m with hL
  by_cases hf : m.format = []
  · have hshape : L = streamsEnc m.streams ++ [] := by
      rw [hL]
      unfold pushRequestMarshal
      simp [hf]
    have hlen : L.length = (streamsEnc m.streams).length := by
      rw [hshape]
      simp
    rw [hlen, hshape,
      unmarshalPushRequestLoop_streams m.streams hss (streamsEnc m.streams).length _ []
        le_rfl]
    rw [unmarshalPushRequestLoop]
    cases m with
    | mk ss fmt =>
      simp only at hf
      subst hf
      rfl
  · have hshape : L = streamsEnc m.streams ++
        (appendTag 2 2 ++ (appendBytes m.format ++ [])) := by
      rw [hL]
      unfold pushRequestMarshal
      simp [hf, List.append_assoc]
    have hlen : L.length = (streamsEnc m.streams).length
        + (1 + (appendBytes m.format).length) := by
      rw [hshape]
      simp [appendTag_bytes2]
      omega
    have hge := streamsEnc_length_ge m.streams
    rw [hlen, hshape,
      unmarshalPushRequestLoop_streams m.streams hss _ _ _ (by omega)]
    have hrem : (streamsEnc m.streams).length + (1 + (appendBytes m.format).length)
          - m.streams.length
        = ((streamsEnc m.streams).length + (appendBytes m.format).length
            - m.streams.length) + 1 := by omega
    rw [hrem, unmarshalPushRequestLoop_format _ _ _ _ hfmt, unmarshalPushRequestLoop]
    cases m
    rfl

/-! Concrete length bounds used by the witness. -/

theorem appendBytes_length (b : List Nat) (h : b.length < 128) :
    (appendBytes b).length = b.length + 1 := by
  unfold appendBytes
  rw [appendVarint_lt _ h]
  simp

theorem entryMarshal_length_le (e : PushEntry) (hl : e.line.length < 100) :
    (entryMarshal e).length ≤ 126 := by
  unfold entryMarshal
  have hts := marshalTimestamp_length_le e.timestamp
  have h1 : (appendBytes (marshalTimestamp e.timestamp)).length
      = (marshalTimestamp e.timestamp).length + 1 := appendBytes_length _ (by omega)
  by_cases h : e.line = []
  · simp [h, appendTag_bytes1, h1]
    omega
  · have h2 : (appendBytes e.line).length = e.line.length + 1 :=
      appendBytes_length _ (by omega)
    simp [h, appendTag_bytes1, appendTag_bytes2, h1, h2]
    omega

theorem entriesEnc_cons (e : PushEntry) (es : List PushEntry) :
    entriesEnc (e :: es)
      = appendTag 2 2 ++ (appendBytes (entryMarshal e) ++ entriesEnc es) := by
  rw [entriesEnc, List.flatMap_cons]
  simp [entriesEnc, List.append_assoc]

theorem entriesEnc_length_le (es : List PushEntry)
    (h : ∀ e ∈ es, (entryMarshal e).length ≤ 126) :
    (entriesEnc es).length ≤ es.length * 128 := by
  induction es with
  | nil => simp [entriesEnc]
  | cons e es ih =>
    have he := h e (List.mem_cons_self e es)
    have hrec := ih (fun e' he' => h e' (List.mem_cons_of_mem e he'))
    rw [entriesEnc_cons]
    have hb : (appendBytes (entryMarshal e)).length = (entryMarshal e).length + 1 :=
      appendBytes_length _ (by omega)
    simp [appendTag_bytes2, hb]
    omega

theorem streamMarshal_length_le (s : PushStream) (hlab : s.labels.length < 100)
    (hes : ∀ e ∈ s.entries, (entryMarshal e).length ≤ 126) :
    (streamMarshal s).length ≤ s.labels.length + 2 + s.entries.length * 128 := by
  unfold streamMarshal
  have hent := entriesEnc_length_le s.entries hes
  by_cases h : s.labels = []
  · simp [h]
    omega
  · have hb : (appendBytes s.labels).length = s.labels.length + 1 :=
      appendBytes_length _ (by omega)
    simp [h, appendTag_bytes1, hb]
    omega

/-- Witness for C9: a concrete request with one stream whose label set is
the two bytes of the canonical empty-set string, holding two entries (the
second with an empty line). -/
theorem pushRequest_roundtrip_witness :
    unmarshalPushRequest (pushRequestMarshal
        ⟨[⟨[123, 125], [⟨⟨1, 0⟩, [104, 105]⟩, ⟨⟨2, 3⟩, []⟩]⟩], []⟩)
      = some ⟨[⟨[123, 125], [⟨⟨1, 0⟩, [104, 105]⟩, ⟨⟨2, 3⟩, []⟩]⟩], []⟩ := by
  apply pushRequest_roundtrip
  refine ⟨?_, by norm_num⟩
  intro s hs
  simp only [List.mem_singleton] at hs
  subst hs
  have he1 : (entryMarshal ⟨⟨1, 0⟩, [104, 105]⟩).length ≤ 126 :=
    entryMarshal_length_le _ (by norm_num)
  have he2 : (entryMarshal ⟨⟨2, 3⟩, []⟩).length ≤ 126 :=
    entryMarshal_length_le _ (by norm_num)
  have hmem : ∀ e ∈ [(⟨⟨1, 0⟩, [104, 105]⟩ : PushEntry), ⟨⟨2, 3⟩, []⟩],
      (entryMarshal e).length ≤ 126 := by
    intro e he
    simp only [List.mem_cons, List.not_mem_nil, or_false] at he
    rcases he with he | he
    · subst he; exact he1
    · subst he; exact he2
  have hsm := streamMarshal_length_le
    ⟨[123, 125], [⟨⟨1, 0⟩, [104, 105]⟩, ⟨⟨2, 3⟩, []⟩]⟩ (by norm_num) hmem
  refine ⟨⟨by simp, by norm_num, ?_⟩, ?_⟩
  · intro e he
    simp only [List.mem_cons, List.not_mem_nil, or_false] at he
    rcases he with he | he
    · subst he
      exact ⟨⟨⟨by norm_num, by norm_num, by norm_num, by norm_num⟩, by norm_num⟩, by omega⟩
    · subst he
      exact ⟨⟨⟨by norm_num, by norm_num, by norm_num, by norm_num⟩, by norm_num⟩, by omega⟩
  · simp only [List.length_cons, List.length_nil] at hsm
    omega

end Lokigo
